import Mathlib

/-!
Shallow embedding of the staking client in `eth/client.go` (go-livepeer).

Addresses (`ethcommon.Address`, 20-byte values) are modelled as `Nat`, with the
zero value `ethcommon.Address{}` modelled as `0`.  Stakes (`*big.Int`,
arbitrary-precision integers) are modelled as `Int`.  Fallible chain reads are
modelled as `Except String` values supplied through an environment record, and
Go errors are modelled as their message strings.  Go slices of transcoders are
modelled as `List Transcoder` at value level; the separate `GoTranscoderSlice`
development below additionally models the backing-array semantics of the Go
slice operations used by `simulateTranscoderPoolUpdate`.
-/

/-- Transcoder entry as used by the pool simulator: its address and its
delegated stake (`lpTypes.Transcoder`, restricted to the two fields the
simulator reads). -/
structure Transcoder where
  Address : Nat
  DelegatedStake : Int
  deriving DecidableEq, Repr

/-- Positional hints for an on-chain linked-list mutation
(`lpTypes.TranscoderPoolHints`).  The Go zero value has both addresses null,
modelled as `⟨0, 0⟩`. -/
structure TranscoderPoolHints where
  PosPrev : Nat
  PosNext : Nat
  deriving DecidableEq, Repr

/-- Zero value of `lpTypes.TranscoderPoolHints` (both neighbors null). -/
def emptyHints : TranscoderPoolHints := ⟨0, 0⟩

/-- Comparison used by the pool sort: `stakeGE a b` holds when the stake of
`a` is at least the stake of `b`.  The Go code sorts with `sort.SliceStable` and
`less i j := DelegatedStake i > DelegatedStake j` (via `big.Int.Cmp`); a list
is in `sort.SliceStable` order for that `less` exactly when it is pairwise
`stakeGE`. -/
def stakeGE (a b : Transcoder) : Bool := decide (b.DelegatedStake ≤ a.DelegatedStake)

/-- Stable insertion used to model `sort.SliceStable`: the inserted element
goes after every strictly larger element and before every element of equal or
smaller stake.  During `sortByStakeDesc` the inserted element is always
earlier in the input than the already-sorted suffix, so placing it before
equal-stake elements is exactly the stability guarantee of
`sort.SliceStable`. -/
def insertByStake (t : Transcoder) : List Transcoder → List Transcoder
  | [] => [t]
  | u :: us => if stakeGE t u then t :: u :: us else u :: insertByStake t us

/-- Model of `sort.SliceStable(transcoders, less)` with
`less i j := stake i > stake j`: the unique stable descending-by-stake sort.
A stable sort is uniquely determined by its comparator, so this structural
insertion sort computes exactly the list `sort.SliceStable` produces. -/
def sortByStakeDesc : List Transcoder → List Transcoder
  | [] => []
  | t :: ts => insertByStake t (sortByStakeDesc ts)

/-- Model of the removal loop at the top of `simulateTranscoderPoolUpdate`
(client.go:805-812): remove the first entry whose address equals `del` and
stop (`break`). -/
def removeFirstByAddress (del : Nat) : List Transcoder → List Transcoder
  | [] => []
  | t :: ts => if t.Address = del then ts else t :: removeFirstByAddress del ts

/-- Whether some entry of the pool has address `del` (used to state the length
law of the simulation). -/
def containsAddress (del : Nat) (l : List Transcoder) : Bool :=
  l.any (fun t => decide (t.Address = del))

/-- Address stored at index `i` of the pool, with the Go zero address for an
out-of-range index (total version of the `transcoders[i]` accesses in
`findTranscoderHints`; the companion `Option`-valued version below shows the
accesses are in fact always in range). -/
def addrAtD (l : List Transcoder) (i : Nat) : Nat :=
  match l[i]? with
  | some t => t.Address
  | none => 0

/-- Address of an optional transcoder, defaulting to the null address. -/
def optAddr : Option Transcoder → Nat
  | some t => t.Address
  | none => 0

/-- Loop body of `findTranscoderHints` (client.go:837-850): `all` is the full
list being scanned, `i` the index of the head of `rest` within `all`.  On a
match with more than one entry in the list, the head case updates `PosNext`,
the tail case updates `PosPrev`, and the middle case updates both. -/
def findHintsLoop (del : Nat) (all : List Transcoder) : Nat → List Transcoder → TranscoderPoolHints → TranscoderPoolHints
  | _, [], hints => hints
  | i, t :: rest, hints =>
    let hints2 :=
      if t.Address = del ∧ 1 < all.length then
        if i = 0 then ⟨hints.PosPrev, addrAtD all (i + 1)⟩
        else if i = all.length - 1 then ⟨addrAtD all (i - 1), hints.PosNext⟩
        else ⟨addrAtD all (i - 1), addrAtD all (i + 1)⟩
      else hints
    findHintsLoop del all (i + 1) rest hints2

/-- Model of `findTranscoderHints` (client.go:833-853): linear scan for `del`,
recording the previous and next transcoder relative to it. -/
def findTranscoderHints (del : Nat) (transcoders : List Transcoder) : TranscoderPoolHints :=
  findHintsLoop del transcoders 0 transcoders emptyHints

/-- Intermediate pool produced by `simulateTranscoderPoolUpdate`
(client.go:805-828), from which the hints are read: remove any existing entry
for `del`, append `{del, newStake}`, stable-sort descending by stake, and drop
the final entry when the pool was full. -/
def simulateTranscoderPool (del : Nat) (newStake : Int) (transcoders : List Transcoder) (isFull : Bool) : List Transcoder :=
  let removed := removeFirstByAddress del transcoders
  let inserted := removed ++ [⟨del, newStake⟩]
  let sorted := sortByStakeDesc inserted
  if isFull then sorted.dropLast else sorted

/-- Model of `simulateTranscoderPoolUpdate` (client.go:804-831): simulate the
pool mutation and read the positional hints for `del` from the result. -/
def simulateTranscoderPoolUpdate (del : Nat) (newStake : Int) (transcoders : List Transcoder) (isFull : Bool) : TranscoderPoolHints :=
  findTranscoderHints del (simulateTranscoderPool del newStake transcoders isFull)

/-- Descending-by-stake order (the pool invariant): the stake of every entry is at
least the stake of every later entry. -/
def sortedByStakeDesc (l : List Transcoder) : Prop :=
  l.Pairwise (fun a b => b.DelegatedStake ≤ a.DelegatedStake)

instance sortedByStakeDesc.instDecidable (l : List Transcoder) : Decidable (sortedByStakeDesc l) :=
  List.instDecidablePairwise l

-- Basic laws of the insertion sort.

theorem length_insertByStake (t : Transcoder) (l : List Transcoder) :
    (insertByStake t l).length = l.length + 1 := by
  induction l with
  | nil => rfl
  | cons u us ih =>
    simp only [insertByStake]
    split
    · simp
    · simp [ih]

theorem length_sortByStakeDesc (l : List Transcoder) :
    (sortByStakeDesc l).length = l.length := by
  induction l with
  | nil => rfl
  | cons t ts ih => simp [sortByStakeDesc, length_insertByStake, ih]

theorem perm_insertByStake (t : Transcoder) (l : List Transcoder) :
    (insertByStake t l).Perm (t :: l) := by
  induction l with
  | nil => rfl
  | cons u us ih =>
    simp only [insertByStake]
    split
    · exact List.Perm.refl _
    · exact ((ih.cons u).trans (List.Perm.swap t u us))

theorem perm_sortByStakeDesc (l : List Transcoder) :
    (sortByStakeDesc l).Perm l := by
  induction l with
  | nil => rfl
  | cons t ts ih => exact (perm_insertByStake t (sortByStakeDesc ts)).trans (ih.cons t)

theorem sorted_insertByStake (t : Transcoder) (l : List Transcoder)
    (h : sortedByStakeDesc l) : sortedByStakeDesc (insertByStake t l) := by
  induction l with
  | nil => simp [insertByStake, sortedByStakeDesc]
  | cons u us ih =>
    simp only [insertByStake]
    rcases List.pairwise_cons.mp h with ⟨hu, hus⟩
    split
    · rename_i hge
      have hge' : u.DelegatedStake ≤ t.DelegatedStake := of_decide_eq_true hge
      refine List.pairwise_cons.mpr ⟨?_, h⟩
      intro b hb
      rcases List.mem_cons.mp hb with rfl | hb
      · exact hge'
      · exact le_trans (hu b hb) hge'
    · rename_i hlt
      have hlt' : ¬ u.DelegatedStake ≤ t.DelegatedStake := fun hc => hlt (decide_eq_true hc)
      have htu : t.DelegatedStake ≤ u.DelegatedStake := le_of_not_le hlt'
      refine List.pairwise_cons.mpr ⟨?_, ih hus⟩
      intro b hb
      have hb' : b ∈ t :: us := (perm_insertByStake t us).mem_iff.mp hb
      rcases List.mem_cons.mp hb' with rfl | hb'
      · exact htu
      · exact hu b hb'

theorem sorted_sortByStakeDesc (l : List Transcoder) :
    sortedByStakeDesc (sortByStakeDesc l) := by
  induction l with
  | nil => exact List.Pairwise.nil
  | cons t ts ih => exact sorted_insertByStake t (sortByStakeDesc ts) ih

theorem length_removeFirstByAddress (del : Nat) (l : List Transcoder) :
    (removeFirstByAddress del l).length =
      if containsAddress del l then l.length - 1 else l.length := by
  induction l with
  | nil => simp [removeFirstByAddress, containsAddress]
  | cons t ts ih =>
    simp only [removeFirstByAddress, containsAddress, List.any_cons]
    by_cases h : t.Address = del
    · simp [h]
    · by_cases hc : containsAddress del ts
      · have hlen : 0 < ts.length := by
          rcases List.any_eq_true.mp hc with ⟨u, hu, _⟩
          exact List.length_pos.mpr (List.ne_nil_of_mem hu)
        simp only [containsAddress] at hc ih
        simp [h, hc, ih]
        omega
      · simp only [containsAddress] at hc ih
        simp [h, hc, ih]

theorem containsAddress_length_pos (del : Nat) (l : List Transcoder)
    (h : containsAddress del l) : 0 < l.length := by
  rcases List.any_eq_true.mp h with ⟨u, hu, _⟩
  exact List.length_pos.mpr (List.ne_nil_of_mem hu)


-- Stability of the sort at the level of equal-stake classes.

theorem stakeFilter_insertByStake (v : Int) (t : Transcoder) (l : List Transcoder) :
    (insertByStake t l).filter (fun u => decide (u.DelegatedStake = v)) =
      if t.DelegatedStake = v then
        t :: l.filter (fun u => decide (u.DelegatedStake = v))
      else l.filter (fun u => decide (u.DelegatedStake = v)) := by
  induction l with
  | nil =>
    simp only [insertByStake, List.filter]
    split <;> simp_all
  | cons u us ih =>
    simp only [insertByStake]
    by_cases hge : stakeGE t u
    · simp only [if_pos hge, List.filter]
      split <;> split <;> simp_all
    · have hgt : t.DelegatedStake < u.DelegatedStake := by
        simp only [stakeGE, decide_eq_true_eq] at hge
        exact lt_of_not_le hge
      simp only [if_neg hge, List.filter_cons, ih]
      by_cases htv : t.DelegatedStake = v
      · have huv : ¬ u.DelegatedStake = v := by
          intro hc
          omega
        simp [htv, huv]
      · simp [htv]

theorem stakeFilter_sortByStakeDesc (v : Int) (l : List Transcoder) :
    (sortByStakeDesc l).filter (fun u => decide (u.DelegatedStake = v)) =
      l.filter (fun u => decide (u.DelegatedStake = v)) := by
  induction l with
  | nil => rfl
  | cons t ts ih =>
    simp only [sortByStakeDesc, stakeFilter_insertByStake, ih, List.filter_cons]
    split <;> simp_all

/-- C4: for every target, new stake, pool and fullness flag, and every stake
value `v`, the entries of stake `v` in the simulated pool are exactly an
initial segment (the possible drop of the final, lowest-stake entry being the
only truncation) of the entries of stake `v` of the list the stable sort was
given — the removal-surviving pool entries in input order followed by the
appended `{del, newStake}` entry.  Equal-stake entries therefore keep their
relative input order, including relative to the appended target entry. -/
theorem simulateTranscoderPool_stable_filter (del : Nat) (newStake : Int)
    (pool : List Transcoder) (isFull : Bool) (v : Int) :
    (simulateTranscoderPool del newStake pool isFull).filter
        (fun u => decide (u.DelegatedStake = v)) <+:
      ((removeFirstByAddress del pool) ++ [(⟨del, newStake⟩ : Transcoder)]).filter
        (fun u => decide (u.DelegatedStake = v)) := by
  simp only [simulateTranscoderPool]
  rw [← stakeFilter_sortByStakeDesc v
    (removeFirstByAddress del pool ++ [(⟨del, newStake⟩ : Transcoder)])]
  split
  · exact List.IsPrefix.filter _ ( List.dropLast_prefix _)
  · exact List.prefix_refl _

/-- C1 counterexample: for the descending pool `[{1,100},{2,80}]` with the
target `1` already present and `isFull = true`, the simulated list has length
1, not `len(pool) = 2` — the final-entry drop applies even when the target was
already in the pool, so the "length `len(pool)` when the target was already
present" clause fails for full pools. -/
theorem simulateTranscoderPool_length_claim_counterexample :
    sortedByStakeDesc [⟨1, 100⟩, ⟨2, 80⟩] ∧
    containsAddress 1 [⟨1, 100⟩, ⟨2, 80⟩] = true ∧
    (simulateTranscoderPool 1 90 [⟨1, 100⟩, ⟨2, 80⟩] true).length ≠
      ([(⟨1, 100⟩ : Transcoder), ⟨2, 80⟩] : List Transcoder).length := by
  refine ⟨by decide, by decide, by decide⟩

/-- C1 (amended): for every pool ordered descending by stake, target and new
stake, the simulated list is sorted descending by stake, and its length is
`len(pool)` (target present) or `len(pool) + 1` (target absent) minus one
further entry when `isFull` is true — in particular a full pool that already
contains the target yields length `len(pool) - 1`. -/
theorem simulateTranscoderPool_sorted_length (del : Nat) (newStake : Int)
    (pool : List Transcoder) (isFull : Bool) (h : sortedByStakeDesc pool) :
    sortedByStakeDesc (simulateTranscoderPool del newStake pool isFull) ∧
    (simulateTranscoderPool del newStake pool isFull).length =
      (if containsAddress del pool then pool.length else pool.length + 1) -
        (if isFull then 1 else 0) := by
  clear h
  simp only [simulateTranscoderPool]
  have hsorted := sorted_sortByStakeDesc (removeFirstByAddress del pool ++ [⟨del, newStake⟩])
  have hlen : (sortByStakeDesc (removeFirstByAddress del pool ++ [⟨del, newStake⟩])).length =
      (removeFirstByAddress del pool).length + 1 := by
    rw [length_sortByStakeDesc]
    simp
  constructor
  · split
    · exact hsorted.sublist (List.dropLast_sublist _)
    · exact hsorted
  · rw [length_removeFirstByAddress] at hlen
    by_cases hc : containsAddress del pool = true
    · have hpos := containsAddress_length_pos del pool hc
      simp only [hc, if_true] at hlen ⊢
      split
      · rw [List.length_dropLast, hlen]
        omega
      · rw [hlen]
        omega
    · have hc' : containsAddress del pool = false := by
        cases hcb : containsAddress del pool
        · rfl
        · exact absurd hcb hc
      simp only [hc', Bool.false_eq_true, if_false] at hlen ⊢
      split
      · rw [List.length_dropLast, hlen]
        try omega
      · rw [hlen]
        try omega

/-- Witness for the amended C1 theorem at the concrete descending pool
`[{1,100},{2,80}]`, absent target `3` with stake `90`, pool not full. -/
theorem simulateTranscoderPool_sorted_length_witness :
    sortedByStakeDesc [⟨1, 100⟩, ⟨2, 80⟩] ∧
    (sortedByStakeDesc (simulateTranscoderPool 3 90 [⟨1, 100⟩, ⟨2, 80⟩] false) ∧
      (simulateTranscoderPool 3 90 [⟨1, 100⟩, ⟨2, 80⟩] false).length =
        (if containsAddress 3 [⟨1, 100⟩, ⟨2, 80⟩] then
          ([(⟨1, 100⟩ : Transcoder), ⟨2, 80⟩] : List Transcoder).length
        else ([(⟨1, 100⟩ : Transcoder), ⟨2, 80⟩] : List Transcoder).length + 1) -
          (if false then 1 else 0)) :=
  ⟨by decide, simulateTranscoderPool_sorted_length 3 90 [⟨1, 100⟩, ⟨2, 80⟩] false (by decide)⟩

-- Bounds-checked mirror of the index and slice accesses of the Go code.

/-- Bounds-checked counterpart of the `transcoders[i]` accesses: `none` marks
an access that would panic in Go. -/
def addrAtChecked (l : List Transcoder) (i : Nat) : Option Nat :=
  (l[i]?).map Transcoder.Address

/-- Bounds-checked counterpart of `transcoders[:len(transcoders)-1]`: Go
panics when the slice is empty (the upper bound would be `-1`). -/
def dropLastChecked (l : List Transcoder) : Option (List Transcoder) :=
  if l.isEmpty then none else some l.dropLast

/-- Bounds-checked `findTranscoderHints` loop: the neighbor accesses
`transcoders[i+1]` and `transcoders[i-1]` are performed through
`addrAtChecked`, so any out-of-range access yields `none`. -/
def findHintsLoopChecked (del : Nat) (all : List Transcoder) : Nat → List Transcoder → TranscoderPoolHints → Option TranscoderPoolHints
  | _, [], hints => some hints
  | i, t :: rest, hints =>
    if t.Address = del ∧ 1 < all.length then
      if i = 0 then
        match addrAtChecked all (i + 1) with
        | some nxt => findHintsLoopChecked del all (i + 1) rest ⟨hints.PosPrev, nxt⟩
        | none => none
      else if i = all.length - 1 then
        match addrAtChecked all (i - 1) with
        | some prv => findHintsLoopChecked del all (i + 1) rest ⟨prv, hints.PosNext⟩
        | none => none
      else
        match addrAtChecked all (i - 1), addrAtChecked all (i + 1) with
        | some prv, some nxt => findHintsLoopChecked del all (i + 1) rest ⟨prv, nxt⟩
        | _, _ => none
    else findHintsLoopChecked del all (i + 1) rest hints

/-- Bounds-checked `findTranscoderHints`. -/
def findTranscoderHintsChecked (del : Nat) (transcoders : List Transcoder) : Option TranscoderPoolHints :=
  findHintsLoopChecked del transcoders 0 transcoders emptyHints

/-- Bounds-checked `simulateTranscoderPoolUpdate`: the eviction slice and
every hint lookup go through the checked operations. -/
def simulateTranscoderPoolUpdateChecked (del : Nat) (newStake : Int) (transcoders : List Transcoder) (isFull : Bool) : Option TranscoderPoolHints :=
  let removed := removeFirstByAddress del transcoders
  let inserted := removed ++ [⟨del, newStake⟩]
  let sorted := sortByStakeDesc inserted
  match (if isFull then dropLastChecked sorted else some sorted) with
  | none => none
  | some final => findTranscoderHintsChecked del final

theorem addrAtChecked_eq (l : List Transcoder) (i : Nat) (h : i < l.length) :
    addrAtChecked l i = some (addrAtD l i) := by
  simp [addrAtChecked, addrAtD, List.getElem?_eq_getElem h]

theorem findHintsLoopChecked_eq (del : Nat) (all : List Transcoder) :
    ∀ (rest : List Transcoder) (i : Nat) (hints : TranscoderPoolHints),
      i + rest.length = all.length →
      findHintsLoopChecked del all i rest hints = some (findHintsLoop del all i rest hints) := by
  intro rest
  induction rest with
  | nil => intro i hints _; rfl
  | cons t rest ih =>
    intro i hints hinv
    have hi : i < all.length := by simp at hinv; omega
    simp only [findHintsLoopChecked, findHintsLoop]
    by_cases hguard : t.Address = del ∧ 1 < all.length
    · rw [if_pos hguard, if_pos hguard]
      have hlen1 : 1 < all.length := hguard.2
      by_cases h0 : i = 0
      · rw [if_pos h0, if_pos h0]
        have hnext : i + 1 < all.length := by omega
        rw [addrAtChecked_eq all (i + 1) hnext]
        exact ih (i + 1) _ (by simp at hinv ⊢; omega)
      · rw [if_neg h0, if_neg h0]
        by_cases hlast : i = all.length - 1
        · rw [if_pos hlast, if_pos hlast]
          have hprev : i - 1 < all.length := by omega
          rw [addrAtChecked_eq all (i - 1) hprev]
          exact ih (i + 1) _ (by simp at hinv ⊢; omega)
        · rw [if_neg hlast, if_neg hlast]
          have hprev : i - 1 < all.length := by omega
          have hnext : i + 1 < all.length := by omega
          rw [addrAtChecked_eq all (i - 1) hprev, addrAtChecked_eq all (i + 1) hnext]
          exact ih (i + 1) _ (by simp at hinv ⊢; omega)
    · rw [if_neg hguard, if_neg hguard]
      exact ih (i + 1) _ (by simp at hinv ⊢; omega)

theorem findTranscoderHintsChecked_eq (del : Nat) (l : List Transcoder) :
    findTranscoderHintsChecked del l = some (findTranscoderHints del l) :=
  findHintsLoopChecked_eq del l l 0 emptyHints (by simp)

/-- C10: for every input — the empty pool, pools with duplicate entries for
the target, and any `isFull` flag included — the bounds-checked mirror of
`simulateTranscoderPoolUpdate`/`findTranscoderHints` never fails and computes
exactly the hints of the total model: every neighbor access `transcoders[i±1]` is
in range under the `len > 1` guard, and the `isFull` eviction slice is
applied to a list made non-empty by the preceding append.  In particular the
functions terminate and always return a hints value. -/
theorem simulateTranscoderPoolUpdateChecked_eq (del : Nat) (newStake : Int)
    (transcoders : List Transcoder) (isFull : Bool) :
    simulateTranscoderPoolUpdateChecked del newStake transcoders isFull =
      some (simulateTranscoderPoolUpdate del newStake transcoders isFull) := by
  simp only [simulateTranscoderPoolUpdateChecked, simulateTranscoderPoolUpdate,
    simulateTranscoderPool]
  have hne : (sortByStakeDesc (removeFirstByAddress del transcoders ++
      [(⟨del, newStake⟩ : Transcoder)])).isEmpty = false := by
    have hlen := length_sortByStakeDesc (removeFirstByAddress del transcoders ++
      [(⟨del, newStake⟩ : Transcoder)])
    rw [List.isEmpty_eq_false_iff_exists_mem]
    have hpos : 0 < (sortByStakeDesc (removeFirstByAddress del transcoders ++
        [(⟨del, newStake⟩ : Transcoder)])).length := by
      rw [hlen]; simp
    rcases List.exists_mem_of_length_pos hpos with ⟨x, hx⟩
    exact ⟨x, hx⟩
  cases isFull with
  | false => simpa using findTranscoderHintsChecked_eq del _
  | true =>
    simp only [if_true, dropLastChecked, hne, Bool.false_eq_true, if_false]
    simpa using findTranscoderHintsChecked_eq del _

-- Walking the findTranscoderHints loop.

theorem findHintsLoop_no_match (del : Nat) (all : List Transcoder) :
    ∀ (l₁ rest : List Transcoder) (i : Nat) (hints : TranscoderPoolHints),
      (∀ u ∈ l₁, u.Address ≠ del) →
      findHintsLoop del all i (l₁ ++ rest) hints =
        findHintsLoop del all (i + l₁.length) rest hints := by
  intro l₁
  induction l₁ with
  | nil => intro rest i hints _; simp
  | cons u l₁ ih =>
    intro rest i hints hno
    have hu : u.Address ≠ del := hno u (List.mem_cons_self u l₁)
    have h2 := ih rest (i + 1) hints (fun v hv => hno v (List.mem_cons_of_mem u hv))
    have harg : i + 1 + l₁.length = i + (u :: l₁).length := by
      simp
      omega
    rw [harg] at h2
    simp only [List.cons_append, findHintsLoop]
    rw [if_neg (by simp [hu])]
    exact h2

theorem findHintsLoop_no_match_all (del : Nat) (all : List Transcoder)
    (l₂ : List Transcoder) (i : Nat) (hints : TranscoderPoolHints)
    (hno : ∀ u ∈ l₂, u.Address ≠ del) :
    findHintsLoop del all i l₂ hints = hints := by
  have h := findHintsLoop_no_match del all l₂ [] i hints hno
  rw [List.append_nil] at h
  rw [h]
  rfl

theorem addrAtD_append_next (l₁ : List Transcoder) (t : Transcoder) (l₂ : List Transcoder) :
    addrAtD (l₁ ++ t :: l₂) (l₁.length + 1) = optAddr l₂.head? := by
  simp only [addrAtD, optAddr]
  rw [List.getElem?_append_right (by omega), show l₁.length + 1 - l₁.length = 1 by omega,
    show (1 : Nat) = 0 + 1 from rfl, List.getElem?_cons_succ, ← List.head?_eq_getElem?]

theorem addrAtD_append_last (l₁ : List Transcoder) (rest : List Transcoder) (h : l₁ ≠ []) :
    addrAtD (l₁ ++ rest) (l₁.length - 1) = optAddr l₁.getLast? := by
  have hpos : 0 < l₁.length := List.length_pos.mpr h
  simp only [addrAtD, optAddr]
  rw [List.getElem?_append, if_pos (by omega), ← List.getLast?_eq_getElem?]

/-- C3: the hints read from a simulated pool follow the five-case placement
rule — (i) target absent: empty hints; (ii) singleton list: empty hints;
(iii) target present at a unique position: the address of the previous entry
(null at the head) and the address of the next entry (null at the tail), stated through
the decomposition `l₁ ++ target :: l₂` with the target in neither `l₁` nor
`l₂`; head means `l₁ = []`, tail means `l₂ = []`, and the middle case gives
both neighbors — and (iv) Scenario A: inserting D (address 4) with stake 90
into the full pool `[A:100, B:80, C:50]` yields hints `{prev: A, next: B}`
for D. -/
theorem findTranscoderHints_placement :
    (∀ (del : Nat) (l : List Transcoder), (∀ u ∈ l, u.Address ≠ del) →
      findTranscoderHints del l = emptyHints) ∧
    (∀ (del : Nat) (l : List Transcoder), l.length = 1 →
      findTranscoderHints del l = emptyHints) ∧
    (∀ (del : Nat) (l₁ : List Transcoder) (t : Transcoder) (l₂ : List Transcoder),
      t.Address = del → (∀ u ∈ l₁, u.Address ≠ del) → (∀ u ∈ l₂, u.Address ≠ del) →
      0 < l₁.length + l₂.length →
      findTranscoderHints del (l₁ ++ t :: l₂) = ⟨optAddr l₁.getLast?, optAddr l₂.head?⟩) ∧
    simulateTranscoderPoolUpdate 4 90 [⟨1, 100⟩, ⟨2, 80⟩, ⟨3, 50⟩] true = ⟨1, 2⟩ := by
  refine ⟨?_, ?_, ?_, by decide⟩
  · intro del l hno
    exact findHintsLoop_no_match_all del l l 0 emptyHints hno
  · intro del l hl
    cases l with
    | nil => simp at hl
    | cons t ts =>
      cases ts with
      | nil => simp [findTranscoderHints, findHintsLoop, emptyHints]
      | cons u us => simp at hl
  · intro del l₁ t l₂ ht hno1 hno2 hlen
    unfold findTranscoderHints
    rw [findHintsLoop_no_match del (l₁ ++ t :: l₂) l₁ (t :: l₂) 0 emptyHints hno1]
    simp only [Nat.zero_add, findHintsLoop]
    have hall : (l₁ ++ t :: l₂).length = l₁.length + l₂.length + 1 := by
      simp
      omega
    rw [if_pos ⟨ht, by omega⟩]
    by_cases h1 : l₁ = []
    · subst h1
      have h2 : l₂ ≠ [] := by
        intro hc
        subst hc
        simp at hlen
      rw [if_pos (by simp)]
      rw [findHintsLoop_no_match_all del _ l₂ _ _ hno2]
      rw [addrAtD_append_next [] t l₂]
      rfl
    · rw [if_neg (by simpa using h1)]
      by_cases h2 : l₂ = []
      · subst h2
        rw [if_pos (by rw [hall]; simp)]
        rw [findHintsLoop_no_match_all del _ [] _ _ (by intro u hu; simp at hu)]
        rw [addrAtD_append_last l₁ _ h1]
        rfl
      · have h2len : 0 < l₂.length := List.length_pos.mpr h2
        rw [if_neg (by rw [hall]; omega)]
        rw [findHintsLoop_no_match_all del _ l₂ _ _ hno2]
        rw [addrAtD_append_last l₁ _ h1, addrAtD_append_next l₁ t l₂]

/-- Witness for the placement rule: target 4 in the middle of
`[{1,100}, {4,90}, {2,80}]` gets hints `{prev: 1, next: 2}`. -/
theorem findTranscoderHints_placement_witness :
    findTranscoderHints 4 ([⟨1, 100⟩] ++ (⟨4, 90⟩ : Transcoder) :: [⟨2, 80⟩]) =
      ⟨optAddr ([(⟨1, 100⟩ : Transcoder)]).getLast?, optAddr ([(⟨2, 80⟩ : Transcoder)]).head?⟩ :=
  findTranscoderHints_placement.2.2.1 4 [⟨1, 100⟩] ⟨4, 90⟩ [⟨2, 80⟩] rfl
    (by decide) (by decide) (by decide)

-- Go slice semantics of simulateTranscoderPoolUpdate (for the purity claim).

/-- Go slice of transcoders as the caller passes it: the backing array (from
the origin of the slice) and the slice length; the capacity is the length of
the backing array.  The caller retains a slice header over the same backing array. -/
structure GoTranscoderSlice where
  backing : List Transcoder
  len : Nat
  deriving DecidableEq, Repr

/-- Model of `simulateTranscoderPoolUpdate` at the level of Go slice
semantics, returning the computed hints together with the backing array the
caller sees after the call.  The removal
`append(transcoders[:i], transcoders[i+1:]...)` copies elements `i+1..len-1`
to positions `i..len-2` of the shared backing array (the destination capacity
always suffices); the insertion `append(transcoders, …)` writes in place
exactly when the length is below the capacity and allocates a fresh array
otherwise; `sort.SliceStable` permutes the viewed elements in place; the
`isFull` truncation only shrinks the local slice header. -/
def simulateTranscoderPoolUpdateGo (del : Nat) (newStake : Int)
    (s : GoTranscoderSlice) (isFull : Bool) : TranscoderPoolHints × List Transcoder :=
  let cap := s.backing.length
  let view := s.backing.take s.len
  let removed : GoTranscoderSlice :=
    match view.findIdx? (fun t => decide (t.Address = del)) with
    | some i => ⟨s.backing.take i ++ view.drop (i + 1) ++ s.backing.drop (s.len - 1), s.len - 1⟩
    | none => ⟨s.backing, s.len⟩
  if removed.len < cap then
    let backing2 := removed.backing.set removed.len ⟨del, newStake⟩
    let len2 := removed.len + 1
    let backing3 := sortByStakeDesc (backing2.take len2) ++ backing2.drop len2
    let len3 := if isFull then len2 - 1 else len2
    (findTranscoderHints del (backing3.take len3), backing3)
  else
    let fresh := removed.backing.take removed.len ++ [⟨del, newStake⟩]
    let sorted := sortByStakeDesc fresh
    let final := if isFull then sorted.dropLast else sorted
    (findTranscoderHints del final, removed.backing)

/-- C2 (code bug): `simulateTranscoderPoolUpdate` is deterministic but not
side-effect-free: called on the slice `[{1,100}, {2,80}, {3,50}]` (length 3 at
full capacity) with target `2` and new stake `90`, the removal copy, the
in-place append and the in-place stable sort write through the shared
backing array, so after the call the slice held by the caller reads
`[{1,100}, {2,90}, {3,50}]` — the original entry `{2,80}` is gone — while the
returned hints agree with the value-level model. -/
theorem simulateTranscoderPoolUpdateGo_mutates_caller :
    (simulateTranscoderPoolUpdateGo 2 90 ⟨[⟨1, 100⟩, ⟨2, 80⟩, ⟨3, 50⟩], 3⟩ false).2.take 3 =
      [⟨1, 100⟩, ⟨2, 90⟩, ⟨3, 50⟩] ∧
    ([(⟨1, 100⟩ : Transcoder), ⟨2, 90⟩, ⟨3, 50⟩] : List Transcoder) ≠
      [⟨1, 100⟩, ⟨2, 80⟩, ⟨3, 50⟩] ∧
    (simulateTranscoderPoolUpdateGo 2 90 ⟨[⟨1, 100⟩, ⟨2, 80⟩, ⟨3, 50⟩], 3⟩ false).1 =
      simulateTranscoderPoolUpdate 2 90 [⟨1, 100⟩, ⟨2, 80⟩, ⟨3, 50⟩] false := by
  decide

-- Orchestrator environment and the Bond operation.

/-- Wrapping of a failed read with the intent of the failing step, modelling
`errors.Wrapf(err, msg)` (message `msg: err`). -/
def wrapErr {α : Type} (msg : String) : Except String α → Except String α
  | .ok a => .ok a
  | .error e => .error (msg ++ ": " ++ e)

/-- Delegator status as parsed by `lpTypes.ParseDelegatorStatus`
({Pending, Bonded, Unbonded}). -/
inductive DelegatorStatus
  | Pending
  | Bonded
  | Unbonded
  deriving DecidableEq, Repr

/-- Domain view of a delegator (`lpTypes.Delegator`), assembled by
`GetDelegator` (client.go:686-698). -/
structure Delegator where
  Address : Nat
  BondedAmount : Int
  Fees : Int
  DelegateAddress : Nat
  DelegatedAmount : Int
  StartRound : Int
  LastClaimRound : Int
  NextUnbondingLockId : Int
  PendingStake : Int
  PendingFees : Int
  Status : DelegatorStatus
  deriving DecidableEq, Repr

/-- Arguments of the final `BondWithHint` submission (client.go:460-467). -/
structure BondCall where
  amount : Int
  toAddr : Nat
  oldPosPrev : Nat
  oldPosNext : Nat
  newPosPrev : Nat
  newPosNext : Nat
  deriving DecidableEq, Repr

/-- Results of the chain reads `Bond` performs, in program order.  Each field
is the outcome the corresponding external call would deliver; `Bond` below
consumes them exactly in the order and under the conditions of the Go code. -/
structure BondEnv where
  sender : Nat
  allowance : Except String Int
  approve : Except String Unit
  checkTxApprove : Except String Unit
  transcoderPool : Except String (List Transcoder)
  maxSize : Except String Int
  delegator : Except String Delegator
  currentRound : Except String Int
  pendingStake : Except String Int
  oldDelegateTotalStake : Except String Int
  toTotalStake : Except String Int

/-- Final step of `Bond` (client.go:451-467): read the total stake of the
target delegate, add the (possibly updated) amount, simulate the insertion hints
and submit `BondWithHint`. -/
def bondFinish (env : BondEnv) (transcoders : List Transcoder) (isFull : Bool)
    (amount : Int) (toAddr : Nat) (oldHints : TranscoderPoolHints) : Except String BondCall :=
  match env.toTotalStake with
  | .error e => .error e
  | .ok totalBonded =>
    let newStake := totalBonded + amount
    let newHints := simulateTranscoderPoolUpdate toAddr newStake transcoders isFull
    .ok ⟨amount, toAddr, oldHints.PosPrev, oldHints.PosNext, newHints.PosPrev, newHints.PosNext⟩

/-- Model of `Bond` (client.go:384-468): check the allowance and, when it is
below the amount, submit an approval and wait for it; read the pool, the max
pool size and the delegator; when switching delegates (current delegate
neither `toAddr` nor null), grow the amount by the pending stake and simulate the
removal hints for the old delegate at its total stake minus the pending
stake of the caller; finally submit with the insertion hints for `toAddr`.  The pool
list is treated as a value here; the slice aliasing of the two simulator
calls is modelled separately by `simulateTranscoderPoolUpdateGo`. -/
def Bond (env : BondEnv) (amount : Int) (toAddr : Nat) : Except String BondCall :=
  match env.allowance with
  | .error e => .error e
  | .ok allowance =>
    let approvalStep : Except String Unit :=
      if allowance < amount then
        match env.approve with
        | .error e => .error e
        | .ok _ => env.checkTxApprove
      else .ok ()
    match approvalStep with
    | .error e => .error e
    | .ok _ =>
      match wrapErr "unable to get transcoder pool" env.transcoderPool with
      | .error e => .error e
      | .ok transcoders =>
        match wrapErr "unable to get transcoder pool max size" env.maxSize with
        | .error e => .error e
        | .ok maxSize =>
          match wrapErr "unable to get delegator" env.delegator with
          | .error e => .error e
          | .ok delegator =>
            let isFull := decide ((transcoders.length : Int) = maxSize)
            if delegator.DelegateAddress ≠ toAddr ∧ delegator.DelegateAddress ≠ 0 then
              match env.currentRound with
              | .error e => .error e
              | .ok _ =>
                match env.pendingStake with
                | .error e => .error e
                | .ok delegatorTotalStake =>
                  let amount2 := delegatorTotalStake + amount
                  match env.oldDelegateTotalStake with
                  | .error e => .error e
                  | .ok totalBonded =>
                    let oldHints := simulateTranscoderPoolUpdate delegator.DelegateAddress
                      (totalBonded - delegatorTotalStake) transcoders isFull
                    bondFinish env transcoders isFull amount2 toAddr oldHints
            else bondFinish env transcoders isFull amount toAddr ⟨0, 0⟩

/-- C5: whenever `Bond(amount, toAddr)` finds the current delegate is neither
`toAddr` nor null (and every read it performs succeeds), the submitted amount is
the pending stake plus the requested amount, the removal hints are simulated
for the old delegate at its total stake minus the pending stake of the caller, and
the insertion hints are simulated for `toAddr` at its total stake plus the new
total amount. -/
theorem Bond_switching_delegate (env : BondEnv) (amount : Int) (toAddr : Nat)
    (a : Int) (pool : List Transcoder) (m : Int) (d : Delegator) (r ps ot tt : Int)
    (hallow : env.allowance = .ok a)
    (happrove : a < amount → env.approve = .ok () ∧ env.checkTxApprove = .ok ())
    (hpool : env.transcoderPool = .ok pool)
    (hmax : env.maxSize = .ok m)
    (hdel : env.delegator = .ok d)
    (hne : d.DelegateAddress ≠ toAddr)
    (hnz : d.DelegateAddress ≠ 0)
    (hround : env.currentRound = .ok r)
    (hps : env.pendingStake = .ok ps)
    (hot : env.oldDelegateTotalStake = .ok ot)
    (htt : env.toTotalStake = .ok tt) :
    Bond env amount toAddr =
      .ok ⟨ps + amount, toAddr,
        (simulateTranscoderPoolUpdate d.DelegateAddress (ot - ps) pool
          (decide ((pool.length : Int) = m))).PosPrev,
        (simulateTranscoderPoolUpdate d.DelegateAddress (ot - ps) pool
          (decide ((pool.length : Int) = m))).PosNext,
        (simulateTranscoderPoolUpdate toAddr (tt + (ps + amount)) pool
          (decide ((pool.length : Int) = m))).PosPrev,
        (simulateTranscoderPoolUpdate toAddr (tt + (ps + amount)) pool
          (decide ((pool.length : Int) = m))).PosNext⟩ := by
  simp only [Bond, hallow]
  have hstep : (if a < amount then
      match env.approve with
      | .error e => .error e
      | .ok _ => env.checkTxApprove
      else .ok ()) = (.ok () : Except String Unit) := by
    by_cases hlt : a < amount
    · rw [if_pos hlt, (happrove hlt).1]
      exact (happrove hlt).2
    · rw [if_neg hlt]
  rw [hstep]
  simp only [hpool, hmax, hdel, wrapErr]
  rw [if_pos ⟨hne, hnz⟩]
  simp only [hround, hps, hot, bondFinish, htt]

/-- Witness for the delegate-switching Bond law: allowance 100, amount 20,
pending stake 7, old delegate 1 (total 50), target 2 (total 60), pool
`[{1,100},{2,80}]` with max size 2.  The submitted amount is 27 and both
simulated pools are full, evicting the respective targets, so both hint pairs
are empty. -/
theorem Bond_switching_delegate_witness :
    Bond ⟨10, .ok 100, .ok (), .ok (), .ok [⟨1, 100⟩, ⟨2, 80⟩], .ok 2,
        .ok ⟨10, 0, 0, 1, 0, 0, 0, 0, 7, 0, DelegatorStatus.Bonded⟩,
        .ok 5, .ok 7, .ok 50, .ok 60⟩ 20 2 = .ok ⟨27, 2, 0, 0, 0, 0⟩ := by
  have h := Bond_switching_delegate
    ⟨10, .ok 100, .ok (), .ok (), .ok [⟨1, 100⟩, ⟨2, 80⟩], .ok 2,
      .ok ⟨10, 0, 0, 1, 0, 0, 0, 0, 7, 0, DelegatorStatus.Bonded⟩,
      .ok 5, .ok 7, .ok 50, .ok 60⟩ 20 2 100 [⟨1, 100⟩, ⟨2, 80⟩] 2
    ⟨10, 0, 0, 1, 0, 0, 0, 0, 7, 0, DelegatorStatus.Bonded⟩ 5 7 50 60 rfl
    (fun hlt => absurd hlt (by decide)) rfl rfl rfl (by decide) (by decide) rfl rfl rfl rfl
  rw [h]
  rfl

-- The Reward operation.

/-- Per-round earnings pool snapshot (`lpTypes.TokenPools`, assembled in
client.go:635-640). -/
structure TokenPools where
  RewardPool : Int
  FeePool : Int
  TotalStake : Int
  ClaimableStake : Int
  deriving DecidableEq, Repr

/-- Results of the chain reads `Reward` performs, in program order. -/
structure RewardEnv where
  addr : Nat
  currentRound : Except String Int
  earningsPool : Except String TokenPools
  mintable : Except String Int
  totalBonded : Except String Int
  transcoderPool : Except String (List Transcoder)
  maxSize : Except String Int

/-- Model of `Reward` (client.go:753-798): read the round, the earnings pool
of the caller, the mintable tokens and the total bonded stake; fail with the
distinguished `no rewards to be minted` condition when total bonded is zero;
otherwise compute `reward = mintable * ep.TotalStake / totalBonded` with
`big.Int.Div` (exact arbitrary-precision Euclidean division, modelled by the
`Int` division of this file — no floating point anywhere), read the pool and
its max size, and submit `RewardWithHint` with the hints simulated for the
caller at stake `reward + ep.TotalStake`. -/
def Reward (env : RewardEnv) : Except String TranscoderPoolHints :=
  match env.currentRound with
  | .error e => .error e
  | .ok _ =>
    match env.earningsPool with
    | .error e => .error e
    | .ok ep =>
      match wrapErr "unable to get current mintable tokens" env.mintable with
      | .error e => .error e
      | .ok mintable =>
        match wrapErr "unable to get total bonded" env.totalBonded with
        | .error e => .error e
        | .ok totalBonded =>
          if totalBonded = 0 then .error "no rewards to be minted"
          else
            let reward := mintable * ep.TotalStake / totalBonded
            match wrapErr "unable to get transcoder pool" env.transcoderPool with
            | .error e => .error e
            | .ok transcoders =>
              match wrapErr "unable to get transcoder pool max size" env.maxSize with
              | .error e => .error e
              | .ok maxSize =>
                .ok (simulateTranscoderPoolUpdate env.addr (reward + ep.TotalStake)
                  transcoders (decide ((transcoders.length : Int) = maxSize)))

/-- C6: for a non-negative mintable amount `M`, earnings-pool total stake and
positive total bonded `B`, the reward `Reward` computes equals the rational
floor `⌊M * TotalStake / B⌋` (exact integer arithmetic, no floating point),
and the submitted hints are simulated for the caller at the new total stake
`TotalStake + reward`. -/
theorem Reward_floor_division (env : RewardEnv)
    (r : Int) (ep : TokenPools) (M B : Int) (pool : List Transcoder) (m : Int)
    (hr : env.currentRound = .ok r)
    (hep : env.earningsPool = .ok ep)
    (hM : env.mintable = .ok M)
    (hB : env.totalBonded = .ok B)
    (hpool : env.transcoderPool = .ok pool)
    (hm : env.maxSize = .ok m)
    (hMnn : 0 ≤ M)
    (hBpos : 0 < B) :
    M * ep.TotalStake / B = ⌊(((M * ep.TotalStake : Int) : ℚ) / ((B : Int) : ℚ))⌋ ∧
    Reward env = .ok (simulateTranscoderPoolUpdate env.addr
      (M * ep.TotalStake / B + ep.TotalStake) pool (decide ((pool.length : Int) = m))) := by
  constructor
  · have hBn : ((B.toNat : ℤ)) = B := Int.toNat_of_nonneg hBpos.le
    have h1 := Rat.floor_intCast_div_natCast (M * ep.TotalStake) B.toNat
    rw [← hBn, Int.cast_natCast]
    exact h1.symm
  · simp only [Reward, hr, hep, hM, hB, wrapErr]
    rw [if_neg (by omega)]
    simp only [hpool, hm, wrapErr]

/-- Witness for the Reward division law: mintable 5, earnings-pool stake 3,
total bonded 2 gives reward `⌊15/2⌋ = 7`. -/
theorem Reward_floor_division_witness :
    (0 : Int) ≤ 5 ∧ (0 : Int) < 2 ∧
    ((5 : Int) * (⟨0, 0, 3, 0⟩ : TokenPools).TotalStake / 2 =
        ⌊(((5 * (⟨0, 0, 3, 0⟩ : TokenPools).TotalStake : Int) : ℚ) / ((2 : Int) : ℚ))⌋ ∧
      Reward ⟨1, .ok 5, .ok ⟨0, 0, 3, 0⟩, .ok 5, .ok 2, .ok [⟨1, 10⟩], .ok 1⟩ =
        .ok (simulateTranscoderPoolUpdate
          (⟨1, .ok 5, .ok ⟨0, 0, 3, 0⟩, .ok 5, .ok 2, .ok [⟨1, 10⟩], .ok 1⟩ : RewardEnv).addr
          (5 * (⟨0, 0, 3, 0⟩ : TokenPools).TotalStake / 2 + (⟨0, 0, 3, 0⟩ : TokenPools).TotalStake)
          [⟨1, 10⟩]
          (decide ((([(⟨1, 10⟩ : Transcoder)] : List Transcoder).length : Int) = 1)))) :=
  ⟨by decide, by decide,
    Reward_floor_division ⟨1, .ok 5, .ok ⟨0, 0, 3, 0⟩, .ok 5, .ok 2, .ok [⟨1, 10⟩], .ok 1⟩
      5 ⟨0, 0, 3, 0⟩ 5 2 [⟨1, 10⟩] 1 rfl rfl rfl rfl rfl rfl (by decide) (by decide)⟩

/-- C7: whenever the total bonded read of `Reward` delivers zero (the earlier
reads having succeeded), the call fails with the distinguished
`no rewards to be minted` condition — whatever the pool and max-size reads
would deliver, since they are never reached: no hints are computed and no
submission is attempted. -/
theorem Reward_zero_totalBonded (env : RewardEnv) (r : Int) (ep : TokenPools) (M : Int)
    (hr : env.currentRound = .ok r)
    (hep : env.earningsPool = .ok ep)
    (hM : env.mintable = .ok M)
    (hB : env.totalBonded = .ok 0) :
    Reward env = .error "no rewards to be minted" := by
  simp only [Reward, hr, hep, hM, hB, wrapErr]
  simp

/-- Witness for the zero-total-bonded law, with the pool and max-size reads
set to failures to exhibit that `Reward` returns before reaching them. -/
theorem Reward_zero_totalBonded_witness :
    Reward ⟨1, .ok 5, .ok ⟨0, 0, 3, 0⟩, .ok 5, .ok 0, .error "pool unavailable",
        .error "max size unavailable"⟩ = .error "no rewards to be minted" :=
  Reward_zero_totalBonded
    ⟨1, .ok 5, .ok ⟨0, 0, 3, 0⟩, .ok 5, .ok 0, .error "pool unavailable",
      .error "max size unavailable"⟩ 5 ⟨0, 0, 3, 0⟩ 5 rfl rfl rfl rfl

-- The GetDelegator domain assembly.

/-- Error message `go-ethereum` delivers when a call returns empty output —
the specific "no checkpoint exists" condition matched in client.go:668 and
678 for accounts that have never accrued. -/
def abiEmptyOutputError : String := "abi: unmarshalling empty output"

/-- Raw record from `BondingManagerSession.GetDelegator` (the fields copied
by client.go:686-698). -/
structure DelegatorInfo where
  BondedAmount : Int
  Fees : Int
  DelegateAddress : Nat
  DelegatedAmount : Int
  StartRound : Int
  LastClaimRound : Int
  NextUnbondingLockId : Int
  deriving DecidableEq, Repr

/-- Results of the reads `GetDelegator` performs, in program order: the
bonding-manager record, the parsed delegator status (the raw status read and
`ParseDelegatorStatus` — both outside the source under scrutiny — collapsed into one
outcome), the current round, and the two pending reads for that round. -/
structure GetDelegatorEnv where
  dInfo : Except String DelegatorInfo
  status : Except String DelegatorStatus
  currentRound : Except String Int
  pendingStake : Except String Int
  pendingFees : Except String Int

/-- Model of `GetDelegator` (client.go:643-699): read the record, the status
and the round; read pending stake and pending fees, converting exactly the
`abi: unmarshalling empty output` failure to the sentinel `-1` and
propagating every other failure unchanged; assemble the `Delegator` view. -/
def GetDelegator (env : GetDelegatorEnv) (addr : Nat) : Except String Delegator :=
  match env.dInfo with
  | .error e => .error e
  | .ok dInfo =>
    match env.status with
    | .error e => .error e
    | .ok status =>
      match env.currentRound with
      | .error e => .error e
      | .ok _ =>
        match (match env.pendingStake with
          | .ok v => .ok v
          | .error e =>
            if e = abiEmptyOutputError then .ok (-1) else .error e : Except String Int) with
        | .error e => .error e
        | .ok pendingStake =>
          match (match env.pendingFees with
            | .ok v => .ok v
            | .error e =>
              if e = abiEmptyOutputError then .ok (-1) else .error e : Except String Int) with
          | .error e => .error e
          | .ok pendingFees =>
            .ok ⟨addr, dInfo.BondedAmount, dInfo.Fees, dInfo.DelegateAddress,
              dInfo.DelegatedAmount, dInfo.StartRound, dInfo.LastClaimRound,
              dInfo.NextUnbondingLockId, pendingStake, pendingFees, status⟩

/-- C8: when a pending-stake or pending-fees read fails with the specific
`abi: unmarshalling empty output` ("no checkpoint exists") condition,
`GetDelegator` returns that field as the sentinel `-1` with no error (the
other reads succeeding); every other failure of the same reads propagates as
an error — the sentinel is never substituted for it. -/
theorem GetDelegator_sentinel (env : GetDelegatorEnv) (addr : Nat)
    (di : DelegatorInfo) (st : DelegatorStatus) (r : Int)
    (hdi : env.dInfo = .ok di) (hst : env.status = .ok st)
    (hr : env.currentRound = .ok r) :
    (∀ pf : Int, env.pendingStake = .error abiEmptyOutputError →
      env.pendingFees = .ok pf →
      GetDelegator env addr = .ok ⟨addr, di.BondedAmount, di.Fees, di.DelegateAddress,
        di.DelegatedAmount, di.StartRound, di.LastClaimRound, di.NextUnbondingLockId,
        -1, pf, st⟩) ∧
    (∀ ps : Int, env.pendingStake = .ok ps →
      env.pendingFees = .error abiEmptyOutputError →
      GetDelegator env addr = .ok ⟨addr, di.BondedAmount, di.Fees, di.DelegateAddress,
        di.DelegatedAmount, di.StartRound, di.LastClaimRound, di.NextUnbondingLockId,
        ps, -1, st⟩) ∧
    (env.pendingStake = .error abiEmptyOutputError →
      env.pendingFees = .error abiEmptyOutputError →
      GetDelegator env addr = .ok ⟨addr, di.BondedAmount, di.Fees, di.DelegateAddress,
        di.DelegatedAmount, di.StartRound, di.LastClaimRound, di.NextUnbondingLockId,
        -1, -1, st⟩) ∧
    (∀ e : String, e ≠ abiEmptyOutputError → env.pendingStake = .error e →
      GetDelegator env addr = .error e) ∧
    (∀ (ps : Int) (e : String), env.pendingStake = .ok ps → e ≠ abiEmptyOutputError →
      env.pendingFees = .error e →
      GetDelegator env addr = .error e) := by
  refine ⟨?_, ?_, ?_, ?_, ?_⟩
  · intro pf hps hpf
    simp only [GetDelegator, hdi, hst, hr, hps, hpf]
    simp
  · intro ps hps hpf
    simp only [GetDelegator, hdi, hst, hr, hps, hpf]
    simp
  · intro hps hpf
    simp only [GetDelegator, hdi, hst, hr, hps, hpf]
    simp
  · intro e he hps
    simp only [GetDelegator, hdi, hst, hr, hps]
    rw [if_neg he]
  · intro ps e hps he hpf
    simp only [GetDelegator, hdi, hst, hr, hps, hpf]
    rw [if_neg he]

/-- Witness for the sentinel law: a never-checkpointed pending-stake read
yields pending stake `-1` with no error while the fees read succeeds with 9. -/
theorem GetDelegator_sentinel_witness :
    GetDelegator ⟨.ok ⟨0, 0, 1, 0, 0, 0, 0⟩, .ok DelegatorStatus.Bonded, .ok 5,
        .error abiEmptyOutputError, .ok 9⟩ 10 =
      .ok ⟨10, 0, 0, 1, 0, 0, 0, 0, -1, 9, DelegatorStatus.Bonded⟩ :=
  (GetDelegator_sentinel ⟨.ok ⟨0, 0, 1, 0, 0, 0, 0⟩, .ok DelegatorStatus.Bonded, .ok 5,
      .error abiEmptyOutputError, .ok 9⟩ 10 ⟨0, 0, 1, 0, 0, 0, 0⟩ DelegatorStatus.Bonded 5
    rfl rfl rfl).1 9 rfl rfl

-- The CheckTx confirmation wait.

/-- Receipt observed by the transaction manager (`transactionReceipt`): the
origin hash of the submitted transaction, the hash and on-chain status of the
mined receipt (from the embedded `types.Receipt`), and a transport-level
error. -/
structure TransactionReceipt where
  originTxHash : Nat
  TxHash : Nat
  Status : Nat
  err : Option String
  deriving DecidableEq, Repr

/-- One event the `CheckTx` select loop can observe: a broadcaster-level
error delivered on the error channel of the subscription, or a receipt delivered
on the receipt channel. -/
inductive TxEvent
  | errEvent (e : String)
  | receiptEvent (r : TransactionReceipt)
  deriving DecidableEq, Repr

/-- Model of the `CheckTx` wait loop (client.go:868-889) over the sequence of
events it observes: a value on the error channel terminates the wait with
that error; a receipt whose origin hash differs from the awaited hash is
discarded and the loop continues; the first matching receipt yields its
transport error when present, then the "transaction failed" error carrying
the mined hash (rendered by `toString` in place of `Hex()`) when the on-chain
status is zero, and success otherwise.  `none` models a wait still blocked
after all observed events. -/
def CheckTx (txHash : Nat) : List TxEvent → Option (Except String Unit)
  | [] => none
  | .errEvent e :: _ => some (.error e)
  | .receiptEvent r :: rest =>
    if r.originTxHash = txHash then
      some (match r.err with
        | some e => .error e
        | none =>
          if r.Status = 0 then .error ("transaction failed txHash=" ++ toString r.TxHash)
          else .ok ())
    else CheckTx txHash rest

/-- C9: every receipt whose origin hash differs from the awaited transaction
hash is discarded and the wait continues unchanged; at the first matching
receipt `CheckTx` returns the transport error of the receipt when present, the
"transaction failed" error carrying the mined hash when the on-chain status
is zero, and success otherwise; a value on the error channel terminates the
wait with that error. -/
theorem CheckTx_receipt_cases :
    (∀ (txHash : Nat) (r : TransactionReceipt) (rest : List TxEvent),
      r.originTxHash ≠ txHash →
      CheckTx txHash (.receiptEvent r :: rest) = CheckTx txHash rest) ∧
    (∀ (txHash : Nat) (r : TransactionReceipt) (rest : List TxEvent) (e : String),
      r.originTxHash = txHash → r.err = some e →
      CheckTx txHash (.receiptEvent r :: rest) = some (.error e)) ∧
    (∀ (txHash : Nat) (r : TransactionReceipt) (rest : List TxEvent),
      r.originTxHash = txHash → r.err = none → r.Status = 0 →
      CheckTx txHash (.receiptEvent r :: rest) =
        some (.error ("transaction failed txHash=" ++ toString r.TxHash))) ∧
    (∀ (txHash : Nat) (r : TransactionReceipt) (rest : List TxEvent),
      r.originTxHash = txHash → r.err = none → r.Status ≠ 0 →
      CheckTx txHash (.receiptEvent r :: rest) = some (.ok ())) ∧
    (∀ (txHash : Nat) (e : String) (rest : List TxEvent),
      CheckTx txHash (.errEvent e :: rest) = some (.error e)) := by
  refine ⟨?_, ?_, ?_, ?_, fun _ _ _ => rfl⟩
  · intro txHash r rest hne
    simp only [CheckTx]
    rw [if_neg hne]
  · intro txHash r rest e hmatch herr
    simp only [CheckTx]
    rw [if_pos hmatch, herr]
  · intro txHash r rest hmatch herr hst
    simp only [CheckTx]
    rw [if_pos hmatch, herr]
    simp [hst]
  · intro txHash r rest hmatch herr hst
    simp only [CheckTx]
    rw [if_pos hmatch, herr]
    simp only [if_neg hst]

/-- Witness for the discard law: a receipt with origin hash 6 is skipped by a
caller waiting on hash 5, leaving the wait in the same state. -/
theorem CheckTx_receipt_cases_witness :
    CheckTx 5 [.receiptEvent ⟨6, 6, 1, none⟩] = CheckTx 5 [] :=
  CheckTx_receipt_cases.1 5 ⟨6, 6, 1, none⟩ [] (by decide)
